import Mathlib

/-!
Verification development for the keylock schedule manager (`scheduler.py`).

Instants are modelled as integer seconds since an epoch that falls on a
Monday at midnight, so `weekday` matches Python's `datetime.weekday()`
convention (Monday = 0 ... Sunday = 6).  Anchors produced by the
application are whole-second values (the UI builds them from
`datetime.time(hour, minute)` and `datetime.combine`), so second
granularity is faithful.
-/

/-- Seconds-since-epoch of midnight of the day containing `t`
    (`now.date()` as a day index is `dayOf t`). -/
def dayOf (t : ℤ) : ℤ := t / 86400

/-- Seconds elapsed since midnight at instant `t` (the time-of-day of `t`). -/
def secOf (t : ℤ) : ℤ := t % 86400

/-- `now.weekday()`: Monday = 0 ... Sunday = 6. -/
def weekdayOf (t : ℤ) : ℤ := dayOf t % 7

/-- `datetime.combine(date, time)`: the instant on day `d` at
    time-of-day `a` seconds. -/
def combine (d : ℤ) (a : ℤ) : ℤ := d * 86400 + a

/-- The `time_type` strings accepted by the scheduler. -/
inductive TimeType
  | once
  | daily
  | weekdays
  | weekends
  | weekly
  | countdown
deriving DecidableEq

/-- The union type of `Schedule.start_time`: a `datetime.time`
    (seconds-of-day), a `datetime.datetime` (absolute instant), or an
    integer seconds count for countdowns. -/
inductive StartTime
  | timeOfDay (a : ℕ)
  | absolute (t : ℤ)
  | seconds (n : ℤ)
deriving DecidableEq

/-- The persistent fields of `Schedule` (`scheduler.py`, class `Schedule`).
    The transient timer handles are modelled separately (`TimerState`). -/
structure Schedule where
  id : String
  name : String
  action : String
  time_type : TimeType
  start_time : StartTime
  days : List ℕ
  duration : Option ℤ
  enabled : Bool
deriving DecidableEq

/-- Result of `_schedule_next_run` on one schedule: the (possibly
    disabled) schedule and, when a timer was started, its delay. -/
structure ArmResult where
  sched : Schedule
  delay : Option ℤ
deriving DecidableEq

/-- Lines 321-329 of `scheduler.py`: a timer is started only when
    `seconds_until_next > 0`. -/
def armTimer (s : Schedule) (secs : ℤ) : ArmResult :=
  if secs > 0 then ⟨s, some secs⟩ else ⟨s, none⟩

/-- `sorted(days)`: insert into an ascending list. -/
def insertSorted (x : ℕ) : List ℕ → List ℕ
  | [] => [x]
  | y :: ys => if x ≤ y then x :: y :: ys else y :: insertSorted x ys

/-- `sorted(schedule.days)` (ascending). -/
def sortDays (l : List ℕ) : List ℕ := l.foldr insertSorted []

/-- The `daily` branch of `_schedule_next_run` (lines 224-233). -/
def dailySeconds (a : ℕ) (now : ℤ) : ℤ :=
  let td := combine (dayOf now) a
  if td > now then td - now
  else combine (dayOf now + 1) a - now

/-- The `weekdays` branch (lines 235-257).  The pair holds
    (`days_ahead`, `seconds_until_next` so far), mirroring the source's
    two mutable locals; the final `if` is the `days_ahead > 0` guard. -/
def weekdaysSeconds (a : ℕ) (now : ℤ) : ℤ :=
  let td := combine (dayOf now) a
  let wd := weekdayOf now
  let p : ℤ × ℤ :=
    if wd < 5 then
      if td > now then (0, td - now)
      else if wd = 4 then (3, 0) else (1, 0)
    else (7 - wd, 0)
  if p.1 > 0 then combine (dayOf now + p.1) a - now else p.2

/-- The `weekends` branch (lines 259-281). -/
def weekendsSeconds (a : ℕ) (now : ℤ) : ℤ :=
  let td := combine (dayOf now) a
  let wd := weekdayOf now
  let p : ℤ × ℤ :=
    if wd ≥ 5 then
      if td > now then (0, td - now)
      else if wd = 5 then (1, 0) else (6, 0)
    else (5 - wd, 0)
  if p.1 > 0 then combine (dayOf now + p.1) a - now else p.2

/-- The `weekly` branch (lines 283-319).  `d0` is the first computed
    `days_ahead`; `d1` is its value after the `days_ahead == 0` block;
    lines 317-319 recompute the target unconditionally. -/
def weeklySeconds (days0 : List ℕ) (a : ℕ) (now : ℤ) : ℤ :=
  let td := combine (dayOf now) a
  let wd := weekdayOf now
  let days := sortDays days0
  let d0 : ℤ :=
    match days.find? (fun d => decide (wd < (d : ℤ))) with
    | some d => (d : ℤ) - wd
    | none => 7 - wd + (days.headI : ℤ)
  let d1 : ℤ :=
    if d0 = 0 then
      if td > now then d0
      else if 1 < days.length then (days.getD 1 0 : ℤ) - wd else 7
    else d0
  combine (dayOf now + d1) a - now

/-- `_schedule_next_run` (lines 192-333).  Returns `none` when the
    Python code would raise an uncaught exception (comparing a
    non-numeric countdown anchor with `0`); otherwise `some` of the
    updated schedule and the started timer's delay, if any.  A recurring
    schedule whose `start_time` is not a `datetime.time` is logged and
    left unchanged; `weekly` with an empty `days` list falls through
    with `seconds_until_next = 0` and arms nothing. -/
def scheduleNextRun (s : Schedule) (now : ℤ) : Option ArmResult :=
  if s.enabled = false then some ⟨s, none⟩
  else
    match s.time_type, s.start_time with
    | .countdown, .seconds n => some (armTimer s n)
    | .countdown, _ => none
    | .once, .absolute t =>
        if t > now then some (armTimer s (t - now))
        else some ⟨{ s with enabled := false }, none⟩
    | .once, _ => some (armTimer s 0)
    | .daily, .timeOfDay a => some (armTimer s (dailySeconds a now))
    | .weekdays, .timeOfDay a => some (armTimer s (weekdaysSeconds a now))
    | .weekends, .timeOfDay a => some (armTimer s (weekendsSeconds a now))
    | .weekly, .timeOfDay a =>
        if s.days = [] then some (armTimer s 0)
        else some (armTimer s (weeklySeconds s.days a now))
    | _, _ => some ⟨s, none⟩

/-!
## Lock-timer bookkeeping

`threading.Timer` objects started for a schedule.  `outstanding` is the
list of timer ids that have been started and neither cancelled nor
fired; `lockRef` is the value of the `schedule.timer` attribute (which
holds only the most recently assigned handle).
-/

structure TimerState where
  nextId : ℕ
  outstanding : List ℕ
  lockRef : Option ℕ
deriving DecidableEq

/-- `schedule.timer = threading.Timer(...); schedule.timer.start()`
    (lines 323-329): a fresh timer is started and the reference is
    overwritten; no cancellation happens here. -/
def startLockTimer (ts : TimerState) : TimerState :=
  { nextId := ts.nextId + 1
    outstanding := ts.outstanding ++ [ts.nextId]
    lockRef := some ts.nextId }

/-- `schedule.timer.cancel()` as done by `update_schedule` and
    `remove_schedule`: cancels the referenced timer only. -/
def cancelLockTimer (ts : TimerState) : TimerState :=
  match ts.lockRef with
  | some i => { ts with outstanding := ts.outstanding.erase i, lockRef := none }
  | none => ts

/-- `_schedule_next_run` together with its effect on the schedule's
    lock timers: when a delay is produced a new timer is started, and
    the previously referenced timer is never cancelled. -/
def armWithTimers (s : Schedule) (now : ℤ) (ts : TimerState) :
    Option (Schedule × TimerState) :=
  (scheduleNextRun s now).map fun r =>
    (r.sched, match r.delay with
              | some _ => startLockTimer ts
              | none => ts)

/-!
## Firing (`_execute_schedule`, lines 335-379)
-/

/-- Outcome of one `_execute_schedule` call on the named schedule:
    the possibly updated schedule, the delay of a newly armed unlock
    timer (if any), and the delay of a newly armed lock timer from
    re-arming (if any). -/
structure ExecResult where
  sched : Schedule
  unlockDelay : Option ℤ
  relockDelay : Option ℤ
deriving DecidableEq

/-- `_execute_schedule` on an existing schedule.  `lockRaises` says
    whether the injected `lock_callback` raises.  On success: the
    unlock timer is armed when `duration` is set, then `once` and
    `countdown` are retired while recurring kinds are re-armed.  On a
    callback error the handler only logs and calls
    `_schedule_next_run` (itself guarded by a logging handler): no
    unlock timer is armed and no retirement happens. -/
def executeSchedule (s : Schedule) (now : ℤ) (lockRaises : Bool) : ExecResult :=
  if s.enabled = false then ⟨s, none, none⟩
  else if lockRaises then
    match scheduleNextRun s now with
    | some r => ⟨r.sched, none, r.delay⟩
    | none => ⟨s, none, none⟩
  else
    if s.time_type = .once ∨ s.time_type = .countdown then
      ⟨{ s with enabled := false }, s.duration, none⟩
    else
      match scheduleNextRun s now with
      | some r => ⟨r.sched, s.duration, r.delay⟩
      | none => ⟨s, s.duration, none⟩

/-!
## Schedule table (`ScheduleManager.schedules`)

A Python dict is an insertion-ordered association list with unique
keys: assignment replaces in place or appends, `del` removes the key.
-/

abbrev Table := List (String × Schedule)

/-- `self.schedules.get(i)` / `i in self.schedules`. -/
def lookupTbl : Table → String → Option Schedule
  | [], _ => none
  | (j, t) :: rest, i => if j = i then some t else lookupTbl rest i

/-- `self.schedules[i] = s`. -/
def insertTbl : Table → String → Schedule → Table
  | [], i, s => [(i, s)]
  | (j, t) :: rest, i, s =>
      if j = i then (i, s) :: rest else (j, t) :: insertTbl rest i s

/-- `del self.schedules[i]`. -/
def eraseTbl : Table → String → Table
  | [], _ => []
  | (j, t) :: rest, i => if j = i then rest else (j, t) :: eraseTbl rest i

/-- `add_schedule` (lines 132-143) restricted to its effect on the
    table.  The `Option Bool` is the returned flag; `none` models an
    exception escaping from `_schedule_next_run` after the insertion.
    Note `_schedule_next_run` may mutate the stored schedule (it
    disables a passed `once`). -/
def add_schedule (tbl : Table) (s : Schedule) (now : ℤ) : Option Bool × Table :=
  if (lookupTbl tbl s.id).isSome then (some false, tbl)
  else
    match scheduleNextRun s now with
    | some r => (some true, insertTbl tbl s.id r.sched)
    | none => (none, insertTbl tbl s.id s)

/-- `update_schedule` (lines 145-164) restricted to its effect on the
    table (timer cancellation is modelled by `cancelLockTimer`). -/
def update_schedule (tbl : Table) (s : Schedule) (now : ℤ) : Option Bool × Table :=
  if (lookupTbl tbl s.id).isNone then (some false, tbl)
  else
    match scheduleNextRun s now with
    | some r => (some true, insertTbl tbl s.id r.sched)
    | none => (none, insertTbl tbl s.id s)

/-- `remove_schedule` (lines 166-182) restricted to its effect on the
    table. -/
def remove_schedule (tbl : Table) (i : String) : Option Bool × Table :=
  if (lookupTbl tbl i).isNone then (some false, tbl)
  else (some true, eraseTbl tbl i)

/-!
## Persistence codec (`to_dict` / `from_dict` / `_save_schedules` /
`_load_schedules`)

The JSON value stored under `"start_time"` is modelled one level above
characters: the fixed-format `strftime`/`strptime` pair for
`"%H:%M:%S"` (resp. `"%Y-%m-%d %H:%M:%S"`) is the decomposition of a
time into its zero-padded digit fields, so the serialized value is kept
as those fields.  `strptime` validates the ranges of `%H`, `%M`, `%S`.
-/

/-- A serialized `start_time` value: a JSON integer, an `"HH:MM:SS"`
    string, or a `"YYYY-MM-DD HH:MM:SS"` string (the date part kept as
    a day index). -/
inductive SerTime
  | secs (n : ℤ)
  | hms (h m s : ℕ)
  | date (d : ℤ) (h m s : ℕ)
deriving DecidableEq

/-- `int(x)`: succeeds on the JSON integer, raises `ValueError` on the
    time strings. -/
def toInt? : SerTime → Option ℤ
  | .secs n => some n
  | _ => none

/-- `datetime.strptime(x, "%H:%M:%S").time()` as seconds-of-day. -/
def parseTime? : SerTime → Option ℕ
  | .hms h m s => if h < 24 ∧ m < 60 ∧ s < 60 then some (h * 3600 + m * 60 + s) else none
  | _ => none

/-- `datetime.strptime(x, "%Y-%m-%d %H:%M:%S")` as an absolute instant. -/
def parseDateTime? : SerTime → Option ℤ
  | .date d h m s =>
      if h < 24 ∧ m < 60 ∧ s < 60 then some (combine d (h * 3600 + m * 60 + s)) else none
  | _ => none

/-- One record of the persisted JSON file.  A field is `none` when the
    key is absent from the record. -/
structure SchedDict where
  id? : Option String
  name? : Option String
  action? : Option String
  time_type? : Option TimeType
  start_time? : Option SerTime
  days? : Option (List ℕ)
  duration? : Option ℤ
  enabled? : Option Bool
deriving DecidableEq

/-- `Schedule.to_dict` (lines 44-68).  `id`, `name`, `action`,
    `time_type`, `enabled` are always written; `start_time` is written
    as the raw integer for `countdown`, as `"%H:%M:%S"` for a
    `datetime.time` and as `"%Y-%m-%d %H:%M:%S"` for a
    `datetime.datetime` (and the key is absent when no branch matches);
    `days` only when non-empty; `duration` only when not `None`.
    (A `countdown` whose anchor is not an integer would store a
    non-JSON object and `json.dump` would fail; that ill-formed case is
    mapped to an absent key.) -/
def Schedule.to_dict (s : Schedule) : SchedDict :=
  { id? := some s.id
    name? := some s.name
    action? := some s.action
    time_type? := some s.time_type
    enabled? := some s.enabled
    start_time? :=
      if s.time_type = .countdown then
        match s.start_time with
        | .seconds n => some (.secs n)
        | _ => none
      else
        match s.start_time with
        | .timeOfDay a => some (.hms (a / 3600) (a % 3600 / 60) (a % 60))
        | .absolute t =>
            some (.date (dayOf t) ((secOf t).toNat / 3600)
                  ((secOf t).toNat % 3600 / 60) ((secOf t).toNat % 60))
        | .seconds _ => none
    days? := if s.days = [] then none else some s.days
    duration? := s.duration }

/-- `Schedule.from_dict` (lines 70-92).  `none` models the exception
    raised on a missing required key or an unparsable `start_time`;
    `days`, `duration`, `enabled` fall back to their defaults. -/
def Schedule.from_dict (d : SchedDict) : Option Schedule := do
  let st ← d.start_time?
  let tt ← d.time_type?
  let anchor : StartTime ←
    match tt with
    | .countdown => (toInt? st).map .seconds
    | .once => (parseDateTime? st).map .absolute
    | _ => (parseTime? st).map .timeOfDay
  let i ← d.id?
  let nm ← d.name?
  let act ← d.action?
  pure { id := i
         name := nm
         action := act
         time_type := tt
         start_time := anchor
         days := d.days?.getD []
         duration := d.duration?
         enabled := d.enabled?.getD true }

/-- `_save_schedules` (lines 423-436): serialize every table entry. -/
def save_schedules (tbl : Table) : List (String × SchedDict) :=
  tbl.map fun p => (p.1, p.2.to_dict)

/-- `_load_schedules` (lines 438-454): insert records one by one on top
    of `acc`; the first record whose `from_dict` raises aborts the loop
    (the single `try` wraps the whole loop), keeping what was already
    inserted. -/
def load_schedules : List (String × SchedDict) → Table → Table
  | [], acc => acc
  | (sid, d) :: rest, acc =>
      match Schedule.from_dict d with
      | some sch => load_schedules rest (insertTbl acc sid sch)
      | none => acc

/-- A schedule whose anchor variant matches its kind, with a
    within-day time-of-day anchor for the recurring kinds. -/
def wf (s : Schedule) : Bool :=
  match s.time_type, s.start_time with
  | .countdown, .seconds _ => true
  | .once, .absolute _ => true
  | .daily, .timeOfDay a => decide (a < 86400)
  | .weekdays, .timeOfDay a => decide (a < 86400)
  | .weekends, .timeOfDay a => decide (a < 86400)
  | .weekly, .timeOfDay a => decide (a < 86400)
  | _, _ => false

/-!
## Basic facts about the time model
-/

theorem secOf_nonneg (t : ℤ) : 0 ≤ secOf t :=
  Int.emod_nonneg t (by norm_num)

theorem secOf_lt (t : ℤ) : secOf t < 86400 :=
  Int.emod_lt_of_pos t (by norm_num)

theorem dayOf_mul_add_secOf (t : ℤ) : dayOf t * 86400 + secOf t = t := by
  unfold dayOf secOf
  omega

theorem weekdayOf_nonneg (t : ℤ) : 0 ≤ weekdayOf t :=
  Int.emod_nonneg _ (by norm_num)

theorem weekdayOf_lt (t : ℤ) : weekdayOf t < 7 :=
  Int.emod_lt_of_pos _ (by norm_num)

theorem dayOf_combine (d : ℤ) (a : ℕ) (h : a < 86400) :
    dayOf (combine d a) = d := by
  unfold dayOf combine
  omega

theorem secOf_combine (d : ℤ) (a : ℕ) (h : a < 86400) :
    secOf (combine d a) = a := by
  unfold secOf combine
  omega

theorem weekdayOf_combine (d : ℤ) (a : ℕ) (h : a < 86400) :
    weekdayOf (combine d a) = d % 7 := by
  unfold weekdayOf
  rw [dayOf_combine d a h]

theorem weekdayOf_eq_emod (t : ℤ) : weekdayOf t = dayOf t % 7 := rfl

@[simp]
theorem armTimer_sched (s : Schedule) (x : ℤ) : (armTimer s x).sched = s := by
  unfold armTimer
  split <;> rfl

/-!
## Claim theorems
-/

/-- An enabled five-second countdown schedule, for exercising the
    timer bookkeeping. -/
def cdSched : Schedule :=
  ⟨"cd1", "Countdown", "both", .countdown, .seconds 5, [], none, true⟩

/-- Claim C1: the spec guarantees that `arm` (`_schedule_next_run`)
    cancels any existing lock-timer before scheduling a new one, so
    arming twice never leaves two outstanding lock-timers.  The code
    does the opposite: it overwrites `schedule.timer` with a freshly
    started `threading.Timer` and never cancels the old one, so arming
    the same enabled countdown schedule twice leaves both timers
    outstanding (ids 0 and 1), with the reference holding only the
    second. -/
theorem arm_twice_leaves_two_lock_timers :
    (armWithTimers cdSched 0 ⟨0, [], none⟩).bind
      (fun p => armWithTimers p.1 0 p.2) =
    some (cdSched, ⟨2, [0, 1], some 1⟩) := by decide

/-- For every kind other than `once`, `_schedule_next_run` never
    modifies the schedule (in particular it never disables it). -/
theorem scheduleNextRun_sched_const (s : Schedule) (now : ℤ) (r : ArmResult)
    (hne : s.time_type ≠ .once) (h : scheduleNextRun s now = some r) :
    r.sched = s := by
  unfold scheduleNextRun at h
  split at h
  · cases h; rfl
  · split at h <;>
      first
        | (cases h; simp; done)
        | cases h
        | (split at h <;>
            first
              | (cases h; simp; done)
              | (simp_all; done))
        | (simp_all; done)

/-- Claim C5: for a `once` schedule, `_schedule_next_run` arms a timer
    with delay `anchor - now` exactly when `anchor > now` (strict, so
    `anchor = now` counts as already passed), and otherwise arms no
    timer and sets `enabled = false`; moreover `once` is the only kind
    for which the calculator can modify (in particular disable) the
    schedule. -/
theorem once_delay_iff (s : Schedule) (now t : ℤ)
    (hen : s.enabled = true) (htt : s.time_type = .once)
    (hst : s.start_time = .absolute t) :
    ((t > now → scheduleNextRun s now = some ⟨s, some (t - now)⟩) ∧
     (¬ t > now → scheduleNextRun s now = some ⟨{ s with enabled := false }, none⟩)) ∧
    (∀ (s' : Schedule) (now' : ℤ) (r : ArmResult), s'.time_type ≠ .once →
      scheduleNextRun s' now' = some r → r.sched = s') := by
  refine ⟨⟨fun h => ?_, fun h => ?_⟩,
          fun s' now' r hne hr => scheduleNextRun_sched_const s' now' r hne hr⟩
  · simp only [scheduleNextRun, hen, htt, hst, armTimer]
    simp only [Bool.true_eq_false, if_false]
    rw [if_pos h, if_pos (by omega : t - now > 0)]
  · simp only [scheduleNextRun, hen, htt, hst]
    simp only [Bool.true_eq_false, if_false]
    rw [if_neg h]

/-- Witness for `once_delay_iff`: one second before a concrete anchor,
    the armed delay is that one second. -/
theorem once_delay_iff_witness :
    scheduleNextRun ⟨"o1", "Once", "both", .once, .absolute 100, [], none, true⟩ 99 =
      some ⟨⟨"o1", "Once", "both", .once, .absolute 100, [], none, true⟩, some 1⟩ :=
  (once_delay_iff _ 99 100 rfl rfl rfl).1.1 (by decide)

/-- An enabled countdown schedule whose anchor is 0 seconds. -/
def cdZero : Schedule :=
  ⟨"cd0", "Countdown", "both", .countdown, .seconds 0, [], none, true⟩

/-- Claim C6 counterexample: the claim says a countdown arm schedules a
    lock-timer for every anchor value, but with anchor 0 the computed
    delay 0 fails the `seconds_until_next > 0` guard and no timer is
    armed (and the schedule stays enabled, silently dormant). -/
theorem countdown_zero_arms_no_timer :
    scheduleNextRun cdZero 17 = some ⟨cdZero, none⟩ := by decide

/-- Claim C6 (amended): for every enabled countdown schedule the
    computed delay is the anchor value unconditionally, but a
    lock-timer is armed only when that value is positive; for anchor
    less than or equal to zero no timer is started. -/
theorem countdown_delay (s : Schedule) (now n : ℤ)
    (hen : s.enabled = true) (htt : s.time_type = .countdown)
    (hst : s.start_time = .seconds n) :
    (0 < n → scheduleNextRun s now = some ⟨s, some n⟩) ∧
    (n ≤ 0 → scheduleNextRun s now = some ⟨s, none⟩) := by
  simp only [scheduleNextRun, hen, htt, hst, armTimer, Bool.true_eq_false, if_false]
  constructor <;> intro h
  · rw [if_pos (by omega : n > 0)]
  · rw [if_neg (by omega : ¬ n > 0)]

/-- Witness for `countdown_delay`: a 300-second countdown arms a timer
    with delay 300. -/
theorem countdown_delay_witness :
    scheduleNextRun ⟨"cdw", "Countdown", "both", .countdown, .seconds 300, [], none, true⟩ 0 =
      some ⟨⟨"cdw", "Countdown", "both", .countdown, .seconds 300, [], none, true⟩, some 300⟩ :=
  (countdown_delay _ 0 300 rfl rfl rfl).1 (by decide)

/-- Claim C9: each mutating table operation fails synchronously and
    atomically on its precondition violation: `add_schedule` on a
    present id, and `update_schedule` / `remove_schedule` on an absent
    id, return `False` to the caller and leave the table unchanged. -/
theorem mutators_fail_atomically (tbl : Table) (s : Schedule) (i : String) (now : ℤ) :
    ((lookupTbl tbl s.id).isSome = true → add_schedule tbl s now = (some false, tbl)) ∧
    ((lookupTbl tbl s.id).isNone = true → update_schedule tbl s now = (some false, tbl)) ∧
    ((lookupTbl tbl i).isNone = true → remove_schedule tbl i = (some false, tbl)) := by
  refine ⟨fun h => ?_, fun h => ?_, fun h => ?_⟩ <;>
    simp [add_schedule, update_schedule, remove_schedule, h]

/-- Witness for `mutators_fail_atomically`: adding a duplicate id,
    updating a missing id and removing a missing id each report failure
    and leave the concrete table untouched. -/
theorem mutators_fail_atomically_witness :
    add_schedule [("cd1", cdSched)] cdSched 0 = (some false, [("cd1", cdSched)]) ∧
    update_schedule [] cdSched 0 = (some false, []) ∧
    remove_schedule [("cd1", cdSched)] "zz" = (some false, [("cd1", cdSched)]) :=
  ⟨(mutators_fail_atomically [("cd1", cdSched)] cdSched "zz" 0).1 (by decide),
   (mutators_fail_atomically [] cdSched "zz" 0).2.1 (by decide),
   (mutators_fail_atomically [("cd1", cdSched)] cdSched "zz" 0).2.2 (by decide)⟩

/-- The `weekly` branch always advances by at least one whole day:
    `days_ahead` is at least 1 whatever `now` and the (non-empty) day
    set are, so the `days_ahead == 0` block is dead code. -/
theorem weeklySeconds_next_day (days0 : List ℕ) (a : ℕ) (now : ℤ)
    (ha : a < 86400) :
    ∃ k : ℤ, 1 ≤ k ∧ weeklySeconds days0 a now = combine (dayOf now + k) a - now := by
  have hwd0 : 0 ≤ weekdayOf now := weekdayOf_nonneg now
  have hwd7 : weekdayOf now < 7 := weekdayOf_lt now
  unfold weeklySeconds
  rcases hf : (sortDays days0).find? (fun d => decide (weekdayOf now < (d : ℤ))) with _ | d
  · refine ⟨7 - weekdayOf now + ((sortDays days0).headI : ℤ), ?_, ?_⟩
    · have : (0 : ℤ) ≤ ((sortDays days0).headI : ℤ) := Int.ofNat_nonneg _
      omega
    · have hne : ¬ (7 - weekdayOf now + ((sortDays days0).headI : ℤ) = 0) := by
        have : (0 : ℤ) ≤ ((sortDays days0).headI : ℤ) := Int.ofNat_nonneg _
        omega
      simp only [hf, if_neg hne]
  · have hd : weekdayOf now < (d : ℤ) := by
      have := List.find?_some hf
      simpa using this
    refine ⟨(d : ℤ) - weekdayOf now, by omega, ?_⟩
    have hne : ¬ ((d : ℤ) - weekdayOf now = 0) := by omega
    simp only [hf, if_neg hne]

/-- Claim C10: a `weekly` schedule with a non-empty day set is never
    fired on the current day: the search only accepts a strictly later
    weekday and the wrap offset is at least 1, so the armed timer's
    target lies at least one day after `now`, at the anchor
    time-of-day. -/
theorem weekly_never_today (s : Schedule) (now : ℤ) (a : ℕ)
    (hen : s.enabled = true) (htt : s.time_type = .weekly)
    (hst : s.start_time = .timeOfDay a) (hds : s.days ≠ [])
    (ha : a < 86400) :
    ∃ d : ℤ, scheduleNextRun s now = some ⟨s, some d⟩ ∧ 0 < d ∧
      secOf (now + d) = (a : ℤ) ∧ dayOf now < dayOf (now + d) := by
  obtain ⟨k, hk, hws⟩ := weeklySeconds_next_day s.days a now ha
  have hnow := dayOf_mul_add_secOf now
  have hsec0 := secOf_nonneg now
  have hsec1 := secOf_lt now
  have hpos : 0 < weeklySeconds s.days a now := by
    rw [hws]; unfold combine; omega
  have htarget : now + weeklySeconds s.days a now = combine (dayOf now + k) a := by
    rw [hws]; ring
  refine ⟨weeklySeconds s.days a now, ?_, hpos, ?_, ?_⟩
  · simp only [scheduleNextRun, hen, htt, hst, Bool.true_eq_false, if_false]
    rw [if_neg hds]
    unfold armTimer
    rw [if_pos hpos]
  · rw [htarget, secOf_combine _ _ ha]
  · rw [htarget, dayOf_combine _ _ ha]; omega

/-- Witness for `weekly_never_today`: Wednesday noon, anchor 08:20:00,
    days Tue and Thu. -/
theorem weekly_never_today_witness :
    ∃ d : ℤ,
      scheduleNextRun ⟨"wk", "Weekly", "both", .weekly, .timeOfDay 30000, [1, 3], none, true⟩
        (2 * 86400 + 50000) = some ⟨⟨"wk", "Weekly", "both", .weekly, .timeOfDay 30000, [1, 3], none, true⟩, some d⟩ ∧
      0 < d ∧ secOf (2 * 86400 + 50000 + d) = (30000 : ℤ) ∧
      dayOf (2 * 86400 + 50000) < dayOf (2 * 86400 + 50000 + d) :=
  weekly_never_today _ _ 30000 rfl rfl rfl (by decide) (by decide)

/-- Claim C4: for a `weekly` schedule on days `{1, 3}` (Tue, Thu), at
    any Wednesday instant strictly past the anchor time-of-day the
    computed next fire is Thursday of the same week (the very next day)
    at the anchor time-of-day. -/
theorem weekly_tue_thu_from_wednesday (s : Schedule) (now : ℤ) (a : ℕ)
    (hen : s.enabled = true) (htt : s.time_type = .weekly)
    (hst : s.start_time = .timeOfDay a) (hds : s.days = [1, 3])
    (ha : a < 86400) (hwed : weekdayOf now = 2) (hpast : (a : ℤ) < secOf now) :
    scheduleNextRun s now = some ⟨s, some (combine (dayOf now + 1) a - now)⟩ ∧
    weekdayOf (combine (dayOf now + 1) a) = 3 ∧
    secOf (combine (dayOf now + 1) a) = (a : ℤ) := by
  have hnow := dayOf_mul_add_secOf now
  have hsec1 := secOf_lt now
  have hde : weeklySeconds s.days a now = combine (dayOf now + 1) a - now := by
    rw [hds]
    unfold weeklySeconds
    rw [hwed]
    norm_num [sortDays, insertSorted, List.find?]
  have hpos : 0 < weeklySeconds s.days a now := by
    rw [hde]; unfold combine; omega
  refine ⟨?_, ?_, secOf_combine _ _ ha⟩
  · simp only [scheduleNextRun, hen, htt, hst, Bool.true_eq_false, if_false]
    rw [if_neg (by simp [hds])]
    unfold armTimer
    rw [if_pos hpos, hde]
  · rw [weekdayOf_combine _ _ ha]
    have : weekdayOf now = dayOf now % 7 := rfl
    omega

/-- Witness for `weekly_tue_thu_from_wednesday`: Wednesday (day 2)
    at 50000 s, anchor 30000 s: the fire lands on Thursday (day 3)
    at 30000 s, 66400 seconds later. -/
theorem weekly_tue_thu_from_wednesday_witness :
    scheduleNextRun ⟨"wk4", "Weekly", "both", .weekly, .timeOfDay 30000, [1, 3], none, true⟩
      (2 * 86400 + 50000) =
      some ⟨⟨"wk4", "Weekly", "both", .weekly, .timeOfDay 30000, [1, 3], none, true⟩,
            some (combine (dayOf (2 * 86400 + 50000) + 1) 30000 - (2 * 86400 + 50000))⟩ ∧
    weekdayOf (combine (dayOf (2 * 86400 + 50000) + 1) 30000) = 3 ∧
    secOf (combine (dayOf (2 * 86400 + 50000) + 1) 30000) = (30000 : ℤ) :=
  weekly_tue_thu_from_wednesday _ _ 30000 rfl rfl rfl rfl (by decide) (by decide) (by decide)

/-- The `daily` branch: the armed delay is positive, lands on the
    anchor time-of-day, and targets today or tomorrow. -/
theorem dailySeconds_spec (a : ℕ) (now : ℤ) (ha : a < 86400) :
    0 < dailySeconds a now ∧
    secOf (now + dailySeconds a now) = (a : ℤ) ∧
    (now + dailySeconds a now = combine (dayOf now) a ∨
     now + dailySeconds a now = combine (dayOf now + 1) a) := by
  simp only [dailySeconds, weekdayOf, dayOf, secOf, combine]
  split_ifs <;>
    refine ⟨by omega, by omega, by omega⟩

/-- The `weekdays` branch: positive delay, anchor time-of-day, target
    on Monday-Friday; a Friday past its anchor jumps 3 days to Monday
    and a weekend day jumps to the coming Monday. -/
theorem weekdaysSeconds_spec (a : ℕ) (now : ℤ) (ha : a < 86400) :
    0 < weekdaysSeconds a now ∧
    secOf (now + weekdaysSeconds a now) = (a : ℤ) ∧
    weekdayOf (now + weekdaysSeconds a now) < 5 ∧
    (weekdayOf now = 4 → combine (dayOf now) a ≤ now →
      now + weekdaysSeconds a now = combine (dayOf now + 3) a ∧
      weekdayOf (now + weekdaysSeconds a now) = 0) ∧
    (5 ≤ weekdayOf now →
      now + weekdaysSeconds a now = combine (dayOf now + (7 - weekdayOf now)) a ∧
      weekdayOf (now + weekdaysSeconds a now) = 0) := by
  simp only [weekdaysSeconds, weekdayOf, dayOf, secOf, combine]
  split_ifs <;>
    refine ⟨by omega, by omega, by omega,
            fun h1 h2 => ⟨by omega, by omega⟩, fun h => ⟨by omega, by omega⟩⟩

/-- The `weekends` branch: positive delay, anchor time-of-day, target
    on Saturday or Sunday; a Sunday past its anchor jumps 6 days to the
    next Saturday, and a weekday jumps to the coming Saturday. -/
theorem weekendsSeconds_spec (a : ℕ) (now : ℤ) (ha : a < 86400) :
    0 < weekendsSeconds a now ∧
    secOf (now + weekendsSeconds a now) = (a : ℤ) ∧
    5 ≤ weekdayOf (now + weekendsSeconds a now) ∧
    (weekdayOf now = 6 → combine (dayOf now) a ≤ now →
      now + weekendsSeconds a now = combine (dayOf now + 6) a ∧
      weekdayOf (now + weekendsSeconds a now) = 5) ∧
    (weekdayOf now < 5 →
      now + weekendsSeconds a now = combine (dayOf now + (5 - weekdayOf now)) a ∧
      weekdayOf (now + weekendsSeconds a now) = 5) := by
  simp only [weekendsSeconds, weekdayOf, dayOf, secOf, combine]
  split_ifs <;>
    refine ⟨by omega, by omega, by omega,
            fun h1 h2 => ⟨by omega, by omega⟩, fun h => ⟨by omega, by omega⟩⟩

/-- Claim C3: for every `daily`, `weekdays` or `weekends` schedule and
    every `now`, the armed delay lands `now + delay` on the anchor
    time-of-day with the kind's day-of-week constraint satisfied; in
    particular a Friday past its anchor advances 3 days to Monday, a
    weekend day advances to the coming Monday, and for `weekends` a
    Sunday past its anchor advances 6 days to the next Saturday (a
    weekday advances to the coming Saturday). -/
theorem recurring_day_constraints (s : Schedule) (now : ℤ) (a : ℕ)
    (hen : s.enabled = true) (hst : s.start_time = .timeOfDay a) (ha : a < 86400) :
    (s.time_type = .daily →
      scheduleNextRun s now = some ⟨s, some (dailySeconds a now)⟩ ∧
      0 < dailySeconds a now ∧
      secOf (now + dailySeconds a now) = (a : ℤ) ∧
      (now + dailySeconds a now = combine (dayOf now) a ∨
       now + dailySeconds a now = combine (dayOf now + 1) a)) ∧
    (s.time_type = .weekdays →
      scheduleNextRun s now = some ⟨s, some (weekdaysSeconds a now)⟩ ∧
      0 < weekdaysSeconds a now ∧
      secOf (now + weekdaysSeconds a now) = (a : ℤ) ∧
      weekdayOf (now + weekdaysSeconds a now) < 5 ∧
      (weekdayOf now = 4 → combine (dayOf now) a ≤ now →
        now + weekdaysSeconds a now = combine (dayOf now + 3) a ∧
        weekdayOf (now + weekdaysSeconds a now) = 0) ∧
      (5 ≤ weekdayOf now →
        now + weekdaysSeconds a now = combine (dayOf now + (7 - weekdayOf now)) a ∧
        weekdayOf (now + weekdaysSeconds a now) = 0)) ∧
    (s.time_type = .weekends →
      scheduleNextRun s now = some ⟨s, some (weekendsSeconds a now)⟩ ∧
      0 < weekendsSeconds a now ∧
      secOf (now + weekendsSeconds a now) = (a : ℤ) ∧
      5 ≤ weekdayOf (now + weekendsSeconds a now) ∧
      (weekdayOf now = 6 → combine (dayOf now) a ≤ now →
        now + weekendsSeconds a now = combine (dayOf now + 6) a ∧
        weekdayOf (now + weekendsSeconds a now) = 5) ∧
      (weekdayOf now < 5 →
        now + weekendsSeconds a now = combine (dayOf now + (5 - weekdayOf now)) a ∧
        weekdayOf (now + weekendsSeconds a now) = 5)) := by
  refine ⟨fun htt => ?_, fun htt => ?_, fun htt => ?_⟩
  · obtain ⟨h1, h2, h3⟩ := dailySeconds_spec a now ha
    refine ⟨?_, h1, h2, h3⟩
    simp only [scheduleNextRun, hen, htt, hst, Bool.true_eq_false, if_false]
    unfold armTimer
    rw [if_pos h1]
  · obtain ⟨h1, h2, h3, h4, h5⟩ := weekdaysSeconds_spec a now ha
    refine ⟨?_, h1, h2, h3, h4, h5⟩
    simp only [scheduleNextRun, hen, htt, hst, Bool.true_eq_false, if_false]
    unfold armTimer
    rw [if_pos h1]
  · obtain ⟨h1, h2, h3, h4, h5⟩ := weekendsSeconds_spec a now ha
    refine ⟨?_, h1, h2, h3, h4, h5⟩
    simp only [scheduleNextRun, hen, htt, hst, Bool.true_eq_false, if_false]
    unfold armTimer
    rw [if_pos h1]

/-- Witness for `recurring_day_constraints`: a weekdays schedule
    anchored at 30000 s, fired from a Friday (day 4) instant past the
    anchor. -/
theorem recurring_day_constraints_witness :
    (⟨"wd", "Weekdays", "both", .weekdays, .timeOfDay 30000, [], none, true⟩ : Schedule).time_type
        = TimeType.weekdays ∧
    scheduleNextRun ⟨"wd", "Weekdays", "both", .weekdays, .timeOfDay 30000, [], none, true⟩
        (4 * 86400 + 50000) =
      some ⟨⟨"wd", "Weekdays", "both", .weekdays, .timeOfDay 30000, [], none, true⟩,
            some (weekdaysSeconds 30000 (4 * 86400 + 50000))⟩ ∧
    0 < weekdaysSeconds 30000 (4 * 86400 + 50000) ∧
    secOf (4 * 86400 + 50000 + weekdaysSeconds 30000 (4 * 86400 + 50000)) = (30000 : ℤ) ∧
    weekdayOf (4 * 86400 + 50000 + weekdaysSeconds 30000 (4 * 86400 + 50000)) < 5 :=
  have h := (recurring_day_constraints
    ⟨"wd", "Weekdays", "both", .weekdays, .timeOfDay 30000, [], none, true⟩
    (4 * 86400 + 50000) 30000 rfl rfl (by decide)).2.1 rfl
  ⟨rfl, h.1, h.2.1, h.2.2.1, h.2.2.2.1⟩

/-- In the error path of `_execute_schedule` (lines 373-379) the only
    action is a guarded re-invocation of `_schedule_next_run`: no
    unlock timer, no retirement. -/
theorem executeSchedule_raises (s : Schedule) (now : ℤ) (hen : s.enabled = true)
    (r : ArmResult) (h : scheduleNextRun s now = some r) :
    executeSchedule s now true = ⟨r.sched, none, r.delay⟩ := by
  simp only [executeSchedule, hen, Bool.true_eq_false, if_false, if_true, h]

/-- An enabled five-second countdown with a ten-second unlock duration. -/
def cdDur : Schedule :=
  ⟨"cdd", "Countdown", "both", .countdown, .seconds 5, [], some 10, true⟩

/-- Claim C2 counterexample: when the lock callback raises on this
    countdown schedule (duration set to 10), the code arms no unlock
    timer (claim: the auto-unlock timer is still armed) and does not
    retire the schedule — it stays enabled and a fresh full countdown
    lock-timer is armed instead (claim: enabled is set to false). -/
theorem lock_error_skips_unlock_and_retirement :
    executeSchedule cdDur 0 true = ⟨cdDur, none, some 5⟩ ∧
    cdDur.duration = some 10 ∧ cdDur.enabled = true := by decide

/-- Claim C2 (amended): if the injected lock callback raises, the error
    is caught and only `_schedule_next_run` is re-invoked: a recurring
    schedule is re-armed for its next recurrence, a `once` schedule
    whose anchor has passed is disabled, and a `countdown` is re-armed
    for a fresh full countdown rather than retired; no auto-unlock
    timer is armed even when `duration` is set. -/
theorem exec_error_reschedules (s : Schedule) (now : ℤ) (hen : s.enabled = true) :
    (∀ a : ℕ, s.start_time = .timeOfDay a → a < 86400 →
      (s.time_type = .daily →
        executeSchedule s now true = ⟨s, none, some (dailySeconds a now)⟩) ∧
      (s.time_type = .weekdays →
        executeSchedule s now true = ⟨s, none, some (weekdaysSeconds a now)⟩) ∧
      (s.time_type = .weekends →
        executeSchedule s now true = ⟨s, none, some (weekendsSeconds a now)⟩) ∧
      (s.time_type = .weekly → s.days ≠ [] →
        executeSchedule s now true = ⟨s, none, some (weeklySeconds s.days a now)⟩)) ∧
    (∀ t : ℤ, s.time_type = .once → s.start_time = .absolute t → t ≤ now →
      executeSchedule s now true = ⟨{ s with enabled := false }, none, none⟩) ∧
    (∀ n : ℤ, s.time_type = .countdown → s.start_time = .seconds n → 0 < n →
      executeSchedule s now true = ⟨s, none, some n⟩) := by
  refine ⟨fun a hst ha => ⟨fun htt => ?_, fun htt => ?_, fun htt => ?_, fun htt hds => ?_⟩,
          fun t htt hst hpast => ?_, fun n htt hst hn => ?_⟩
  · exact executeSchedule_raises s now hen ⟨s, some (dailySeconds a now)⟩ (by
      simp only [scheduleNextRun, hen, htt, hst, Bool.true_eq_false, if_false]
      unfold armTimer
      rw [if_pos (dailySeconds_spec a now ha).1])
  · exact executeSchedule_raises s now hen ⟨s, some (weekdaysSeconds a now)⟩ (by
      simp only [scheduleNextRun, hen, htt, hst, Bool.true_eq_false, if_false]
      unfold armTimer
      rw [if_pos (weekdaysSeconds_spec a now ha).1])
  · exact executeSchedule_raises s now hen ⟨s, some (weekendsSeconds a now)⟩ (by
      simp only [scheduleNextRun, hen, htt, hst, Bool.true_eq_false, if_false]
      unfold armTimer
      rw [if_pos (weekendsSeconds_spec a now ha).1])
  · refine executeSchedule_raises s now hen ⟨s, some (weeklySeconds s.days a now)⟩ ?_
    obtain ⟨k, hk, hws⟩ := weeklySeconds_next_day s.days a now ha
    have hnow := dayOf_mul_add_secOf now
    have hsec1 := secOf_lt now
    have hpos : 0 < weeklySeconds s.days a now := by
      rw [hws]; unfold combine; omega
    simp only [scheduleNextRun, hen, htt, hst, Bool.true_eq_false, if_false]
    rw [if_neg hds]
    unfold armTimer
    rw [if_pos hpos]
  · exact executeSchedule_raises s now hen ⟨{ s with enabled := false }, none⟩ (by
      simp only [scheduleNextRun, hen, htt, hst, Bool.true_eq_false, if_false]
      rw [if_neg (by omega : ¬ t > now)])
  · exact executeSchedule_raises s now hen ⟨s, some n⟩ (by
      simp only [scheduleNextRun, hen, htt, hst, Bool.true_eq_false, if_false]
      unfold armTimer
      rw [if_pos (by omega : n > 0)])

/-- Witness for `exec_error_reschedules`: a daily schedule with a
    duration, whose lock callback raises, is re-armed with the daily
    delay, stays enabled, and gets no unlock timer. -/
theorem exec_error_reschedules_witness :
    executeSchedule ⟨"dl", "Daily", "both", .daily, .timeOfDay 30000, [], some 10, true⟩ 50000 true =
      ⟨⟨"dl", "Daily", "both", .daily, .timeOfDay 30000, [], some 10, true⟩, none,
       some (dailySeconds 30000 50000)⟩ :=
  ((exec_error_reschedules ⟨"dl", "Daily", "both", .daily, .timeOfDay 30000, [], some 10, true⟩
      50000 rfl).1 30000 rfl (by decide)).1 rfl

/-- The `days` key is written only when non-empty and read back with
    default `[]`, which is the identity on the stored list. -/
theorem daysField_roundtrip (ds : List ℕ) :
    (if ds = [] then (none : Option (List ℕ)) else some ds).getD [] = ds := by
  split <;> simp_all

/-- Per-schedule round trip: `from_dict (to_dict s) = s` for every
    well-formed schedule of every kind. -/
theorem from_dict_to_dict (s : Schedule) (h : wf s = true) :
    Schedule.from_dict s.to_dict = some s := by
  obtain ⟨i, nm, act, tt, st, ds, dur, en⟩ := s
  have hd := daysField_roundtrip ds
  cases tt <;> cases st <;> simp_all only [wf, decide_eq_true_eq, Bool.false_eq_true]
  case once.absolute t =>
    have h1 := secOf_lt t
    have h2 := secOf_nonneg t
    have hb1 : (secOf t).toNat / 3600 < 24 := by omega
    have hb2 : (secOf t).toNat % 3600 / 60 < 60 := by omega
    have hb3 : (secOf t).toNat % 60 < 60 := by omega
    have hv : combine (dayOf t)
        (((secOf t).toNat / 3600 * 3600 + (secOf t).toNat % 3600 / 60 * 60 +
          (secOf t).toNat % 60 : ℕ) : ℤ) = t := by
      have h3 := dayOf_mul_add_secOf t
      unfold combine
      omega
    simp [Schedule.to_dict, Schedule.from_dict, parseDateTime?, hb1, hb2, hb3, hd]
    rw [sup_eq_left.mpr h2]
    have h3 := dayOf_mul_add_secOf t
    unfold combine
    omega
  case countdown.seconds n =>
    simp [Schedule.to_dict, Schedule.from_dict, toInt?, hd]
  all_goals
    rename_i a
    have hb1 : a / 3600 < 24 := by omega
    have hb2 : a % 3600 / 60 < 60 := by omega
    have hb3 : a % 60 < 60 := by omega
    have hv : a / 3600 * 3600 + a % 3600 / 60 * 60 + a % 60 = a := by omega
    simp [Schedule.to_dict, Schedule.from_dict, parseTime?, hb1, hb2, hb3, hv, hd]

/-- Dict assignment with a fresh key appends. -/
theorem insertTbl_fresh (tbl : Table) (i : String) (s : Schedule)
    (h : lookupTbl tbl i = none) : insertTbl tbl i s = tbl ++ [(i, s)] := by
  induction tbl with
  | nil => rfl
  | cons p rest ih =>
    obtain ⟨j, t⟩ := p
    by_cases hj : j = i
    · simp [lookupTbl, hj] at h
    · simp only [lookupTbl, if_neg hj] at h
      simp [insertTbl, hj, ih h]

/-- Key lookup distributes over table concatenation. -/
theorem lookupTbl_append (t1 t2 : Table) (i : String) (h : lookupTbl t1 i = none) :
    lookupTbl (t1 ++ t2) i = lookupTbl t2 i := by
  induction t1 with
  | nil => rfl
  | cons p rest ih =>
    obtain ⟨j, t⟩ := p
    by_cases hj : j = i
    · simp [lookupTbl, hj] at h
    · simp only [lookupTbl, if_neg hj] at h
      simp [lookupTbl, List.cons_append, if_neg hj, ih h]

/-- Loading the serialization of a table of well-formed schedules with
    pairwise distinct ids, followed by any remaining records, first
    reproduces exactly that table. -/
theorem load_save_aux (tbl : Table) (rest : List (String × SchedDict)) (acc : Table)
    (hwf : ∀ p ∈ tbl, wf p.2 = true)
    (hnd : (tbl.map Prod.fst).Nodup)
    (hfresh : ∀ p ∈ tbl, lookupTbl acc p.1 = none) :
    load_schedules (save_schedules tbl ++ rest) acc = load_schedules rest (acc ++ tbl) := by
  induction tbl generalizing acc with
  | nil => simp [save_schedules]
  | cons p tl ih =>
    obtain ⟨sid, sch⟩ := p
    have hw : wf sch = true := hwf _ (List.mem_cons_self _ _)
    have hfr : lookupTbl acc sid = none := hfresh _ (List.mem_cons_self _ _)
    simp only [save_schedules, List.map_cons, List.cons_append, List.append_eq,
      load_schedules, from_dict_to_dict sch hw]
    rw [insertTbl_fresh acc sid sch hfr]
    have hnd' : (tl.map Prod.fst).Nodup := (List.nodup_cons.mp hnd).2
    have hsid : sid ∉ tl.map Prod.fst := (List.nodup_cons.mp hnd).1
    have hfresh' : ∀ p ∈ tl, lookupTbl (acc ++ [(sid, sch)]) p.1 = none := by
      intro q hq
      rw [lookupTbl_append _ _ _ (hfresh _ (List.mem_cons_of_mem _ hq))]
      have : sid ≠ q.1 := fun he => hsid (he ▸ List.mem_map_of_mem Prod.fst hq)
      simp [lookupTbl, this]
    have := ih (acc ++ [(sid, sch)]) (fun p hp => hwf p (List.mem_cons_of_mem _ hp)) hnd' hfresh'
    rw [show save_schedules tl = tl.map (fun p => (p.1, p.2.to_dict)) from rfl] at this
    rw [this]
    simp

/-- Claim C8: `load(save(table))` reproduces the table exactly — same
    ids, kinds, anchors, enabled flags, durations and day sets, for
    every table of well-formed schedules of any kinds (ids are unique
    in a table, which is a Python dict), and the per-schedule codec
    round-trips every well-formed schedule. -/
theorem save_load_roundtrip (tbl : Table)
    (hwf : ∀ p ∈ tbl, wf p.2 = true) (hnd : (tbl.map Prod.fst).Nodup) :
    load_schedules (save_schedules tbl) [] = tbl ∧
    ∀ p ∈ tbl, Schedule.from_dict p.2.to_dict = some p.2 := by
  constructor
  · have h := load_save_aux tbl [] [] hwf hnd (fun p _ => rfl)
    simpa [load_schedules] using h
  · exact fun p hp => from_dict_to_dict p.2 (hwf p hp)

/-- A table holding one well-formed schedule of each of the six
    recurrence kinds (weekly with the two-element day set Tue/Thu). -/
def sixKinds : Table :=
  [("a", ⟨"a", "Once", "both", .once, .absolute 1700000000, [], none, true⟩),
   ("b", ⟨"b", "Daily", "keyboard", .daily, .timeOfDay 30000, [], some 3600, true⟩),
   ("c", ⟨"c", "Weekdays", "mouse", .weekdays, .timeOfDay 60, [], none, false⟩),
   ("d", ⟨"d", "Weekends", "both", .weekends, .timeOfDay 86399, [], some 5, true⟩),
   ("e", ⟨"e", "Weekly", "both", .weekly, .timeOfDay 30000, [1, 3], none, true⟩),
   ("f", ⟨"f", "Countdown", "both", .countdown, .seconds 300, [], some 10, true⟩)]

/-- Witness for `save_load_roundtrip`: the six-kind table reloads to
    itself. -/
theorem save_load_roundtrip_witness :
    load_schedules (save_schedules sixKinds) [] = sixKinds :=
  (save_load_roundtrip sixKinds (by decide) (by decide)).1

/-- A record whose `"HH:MM:SS"` anchor has hour 25 — `strptime`
    rejects it, so `from_dict` raises. -/
def badRec : SchedDict :=
  ⟨some "b", some "Bad", some "both", some .daily, some (.hms 25 0 0), none, none, some true⟩

/-- A well-formed daily schedule stored after the malformed record. -/
def goodSched : Schedule :=
  ⟨"g", "Good", "both", .daily, .timeOfDay 30000, [], none, true⟩

/-- Claim C7 counterexample: the file holds a malformed record followed
    by a perfectly well-formed one, yet `_load_schedules` loads
    nothing: the single `try` wraps the whole loop, so the first bad
    record aborts the load and the later well-formed record is lost,
    contradicting "every other well-formed record in the file is still
    loaded". -/
theorem load_aborts_on_malformed :
    Schedule.from_dict badRec = none ∧
    Schedule.from_dict goodSched.to_dict = some goodSched ∧
    load_schedules [("b", badRec), ("g", goodSched.to_dict)] [] = [] := by decide

/-- Claim C7 (amended): a malformed record makes `load()` stop with a
    logged error rather than crash: every record before the first
    malformed one is loaded, and the malformed record together with
    every record after it is skipped. -/
theorem load_keeps_prefix (pre : Table) (sid : String) (bad : SchedDict)
    (post : List (String × SchedDict))
    (hwf : ∀ p ∈ pre, wf p.2 = true) (hnd : (pre.map Prod.fst).Nodup)
    (hbad : Schedule.from_dict bad = none) :
    load_schedules (save_schedules pre ++ (sid, bad) :: post) [] = pre := by
  rw [load_save_aux pre ((sid, bad) :: post) [] hwf hnd (fun p _ => rfl)]
  simp [load_schedules, hbad]

/-- Witness for `load_keeps_prefix`: with one good record before and
    one after the malformed one, exactly the leading record survives. -/
theorem load_keeps_prefix_witness :
    load_schedules (save_schedules [("g", goodSched)] ++
        ("b", badRec) :: [("g2", goodSched.to_dict)]) [] = [("g", goodSched)] :=
  load_keeps_prefix [("g", goodSched)] "b" badRec [("g2", goodSched.to_dict)]
    (by decide) (by decide) (by decide)
